import Mathlib

/-!
# Verification of the `bitmap` crate (`src/lib.rs`)

Shallow embedding of the fixed-universe 16-bit bitmap container: a store of
1024 64-bit words (`type Word = u64`, `BITMAP_SIZE = 65536 / 64 = 1024`)
together with a cached cardinality.  Machine words are modelled as `Nat`
values kept below `2 ^ 64`; `u64` operations that cannot overflow are plain
`Nat` operations, and the places where widths matter (`count_ones`, the
bitwise complement in `remove`, the SIMD byte counting, the `u16` index
cursor of `to_vec`) carry the width explicitly.
-/

set_option autoImplicit false
set_option maxRecDepth 8000

namespace BitmapVerif

/-- Fuel-bounded popcount: `popcountAux k n` counts the set bits among the
`k` least significant bits of `n`. -/
def popcountAux : Nat → Nat → Nat
  | 0, _ => 0
  | k + 1, n => n % 2 + popcountAux k (n / 2)

/-- `u64::count_ones`: population count of the 64 bits of a word. -/
def count_ones (w : Nat) : Nat := popcountAux 64 w

/-- Sum of the per-word popcounts of a store; the ground truth that the
cached `len` field must track. -/
def popsum (store : List Nat) : Nat := (store.map count_ones).sum

/-- The `Bitmap` struct: cached cardinality `len` and the word store
(`[Word; 1024]`, modelled as a list of that length). -/
structure Bitmap where
  len : Nat
  store : List Nat
deriving DecidableEq, Repr

namespace Bitmap

/-- `Bitmap::new()`: the empty bitmap. -/
def new : Bitmap := { len := 0, store := List.replicate 1024 0 }

/-- `Bitmap::full()`: the full-universe bitmap (`Word::MAX` everywhere). -/
def full : Bitmap := { len := 65536, store := List.replicate 1024 (2 ^ 64 - 1) }

/-- `Bitmap::key`: word index of a value, `index / Word::BITS`. -/
def key (v : Nat) : Nat := v / 64

/-- `Bitmap::bit`: bit offset of a value, `index % Word::BITS`. -/
def bit (v : Nat) : Nat := v % 64

/-- Well-formedness provided by the Rust types: the store is a
`[u64; 1024]`, so it has length 1024 and every word fits in 64 bits. -/
def WF (b : Bitmap) : Prop := b.store.length = 1024 ∧ ∀ w ∈ b.store, w < 2 ^ 64

instance (b : Bitmap) : Decidable b.WF := by
  unfold WF; infer_instance

/-- The cardinality invariant of the container: the cached `len` equals the
total popcount of the store. -/
def Inv (b : Bitmap) : Prop := b.len = popsum b.store

instance (b : Bitmap) : Decidable b.Inv := by
  unfold Inv; infer_instance

/-- `Bitmap::insert`: sets the bit of `value`, updates the cached length by
the XOR-derived delta, and returns `inserted != 0`. -/
def insert (b : Bitmap) (value : Nat) : Bitmap × Bool :=
  let k := key value
  let bi := bit value
  let old_w := b.store.getD k 0
  let new_w := old_w ||| (1 <<< bi)
  let inserted := (old_w ^^^ new_w) >>> bi
  ({ len := b.len + inserted, store := b.store.set k new_w }, inserted != 0)

/-- `Bitmap::remove`: clears the bit of `value` (the `u64` complement
`!(1 << bit)` is `(2 ^ 64 - 1) ^^^ (1 <<< bit)`), updates the cached length
by the XOR-derived delta, and returns `removed != 0`. -/
def remove (b : Bitmap) (value : Nat) : Bitmap × Bool :=
  let k := key value
  let bi := bit value
  let old_w := b.store.getD k 0
  let new_w := old_w &&& ((2 ^ 64 - 1) ^^^ (1 <<< bi))
  let removed := (old_w ^^^ new_w) >>> bi
  ({ len := b.len - removed, store := b.store.set k new_w }, removed != 0)

/-- `Bitmap::contains`: tests the bit of `index`. -/
def contains (b : Bitmap) (index : Nat) : Bool :=
  (b.store.getD (key index) 0 &&& (1 <<< bit index)) != 0

/-- `Bitmap::intersection` (scalar): word-wise AND into the left store,
recomputing the cardinality as the popcount accumulated in the same pass. -/
def intersection (b : Bitmap) (other : Bitmap) : Bitmap :=
  let store := List.zipWith (fun x y => x &&& y) b.store other.store
  { len := popsum store, store := store }

/-- `vcntq_u8` / `vaddvq_u8` byte view of a `u64`: the eight bytes of the
word, least significant first. -/
def toBytes (w : Nat) : List Nat :=
  (List.range 8).map (fun i => (w >>> (8 * i)) &&& 255)

/-- Per-lane set-bit count of the SIMD path: the sixteen byte popcounts of
the two AND-ed words of a 128-bit lane, horizontally summed by `vaddvq_u8`
as a `u8` (hence the `% 256`). -/
def laneCount (r0 r1 : Nat) : Nat :=
  (((toBytes r0 ++ toBytes r1).map count_ones).sum) % 256

/-- The pointer loop of `Bitmap::intersection_simd`: processes two adjacent
words per 128-bit lane, ANDs them in place and accumulates the lane
popcounts.  On the 1024-word stores it runs exactly `BITMAP_SIZE / 2`
iterations, consuming both lists. -/
def simdLoop : List Nat → List Nat → List Nat × Nat
  | x0 :: x1 :: xs, y0 :: y1 :: ys =>
    let r0 := x0 &&& y0
    let r1 := x1 &&& y1
    let rest := simdLoop xs ys
    (r0 :: r1 :: rest.1, laneCount r0 r1 + rest.2)
  | _, _ => ([], 0)

/-- `Bitmap::intersection_simd`: the vectorized intersection. -/
def intersection_simd (b : Bitmap) (other : Bitmap) : Bitmap :=
  let r := simdLoop b.store other.store
  { len := r.2, store := r.1 }

/-- `u16::saturating_add(1)` on the index cursor of `to_vec`. -/
def satSucc (i : Nat) : Nat := min (i + 1) 65535

/-- The inner per-bit loop of `Bitmap::to_vec`: 64 iterations over a word,
pushing the cursor value for each set low bit, shifting the word right and
saturating the cursor.  Returns the pushed values and the final cursor. -/
def wordBits : Nat → Nat → Nat → List Nat × Nat
  | 0, _, idx => ([], idx)
  | k + 1, cur, idx =>
    let rest := wordBits k (cur / 2) (satSucc idx)
    ((if cur % 2 = 1 then [idx] else []) ++ rest.1, rest.2)

/-- The word loop of `Bitmap::to_vec`: nonzero words are decoded bit by bit
(the per-word buffer is appended to the output wholesale), zero words only
advance the cursor by the word width, and the loop breaks as soon as the
output length reaches the cached cardinality. -/
def toVecGo (len : Nat) : List Nat → Nat → List Nat → List Nat
  | [], _, ret => ret
  | cur :: rest, idx, ret =>
    if count_ones cur ≠ 0 then
      let w := wordBits 64 cur idx
      let ret2 := ret ++ w.1
      if ret2.length = len then ret2 else toVecGo len rest w.2 ret2
    else
      if ret.length = len then ret else toVecGo len rest (idx + 64) ret

/-- `Bitmap::to_vec`: decode the store into the list of members. -/
def to_vec (b : Bitmap) : List Nat := toVecGo b.len b.store 0 []

/-- Overflow-checked variant of the word loop: the zero-word branch of the
source advances the `u16` cursor with a plain `+= 64` (before the break
test), which panics when the sum leaves the `u16` range; that panic is
modelled as `none`.  The nonzero branch only uses `saturating_add` and
cannot overflow. -/
def toVecGoChk (len : Nat) : List Nat → Nat → List Nat → Option (List Nat)
  | [], _, ret => some ret
  | cur :: rest, idx, ret =>
    if count_ones cur ≠ 0 then
      let w := wordBits 64 cur idx
      let ret2 := ret ++ w.1
      if ret2.length = len then some ret2 else toVecGoChk len rest w.2 ret2
    else
      if idx + 64 ≤ 65535 then
        if ret.length = len then some ret else toVecGoChk len rest (idx + 64) ret
      else none

/-- `Bitmap::to_vec` with the `u16` cursor overflow made observable. -/
def to_vec_checked (b : Bitmap) : Option (List Nat) :=
  toVecGoChk b.len b.store 0 []

/-- `FromIterator<u16> for Bitmap`: fold single insertions over the input
sequence starting from the empty bitmap. -/
def from_iter (l : List Nat) : Bitmap :=
  l.foldl (fun b v => (b.insert v).1) new

/-- Iterative single insertion, spelled as explicit recursion: insert the
values one by one. -/
def insertAll : Bitmap → List Nat → Bitmap
  | b, [] => b
  | b, v :: vs => insertAll (b.insert v).1 vs

/-- `impl BitOr<&Bitmap> for Bitmap`: word-wise OR into the left store,
recomputing the cardinality as the popcount accumulated in the same pass. -/
def bitor (b : Bitmap) (rhs : Bitmap) : Bitmap :=
  let store := List.zipWith (fun x y => x ||| y) b.store rhs.store
  { len := popsum store, store := store }

/-- `impl BitAnd<&Bitmap> for Bitmap`: delegates to `intersection`. -/
def bitand (b : Bitmap) (rhs : Bitmap) : Bitmap := intersection b rhs

end Bitmap

/-- Bit `i` of a suffix of the store viewed as one long bit string:
bit `i % 64` of word `i / 64`. -/
def bitsOf (ws : List Nat) (i : Nat) : Bool :=
  (ws.getD (i / 64) 0).testBit (i % 64)

/-- Modelled from the spec: the sorted set intersection of two decoded
sequences — the ascending enumeration of the universe values that occur in
both sequences. -/
def listInter (xs ys : List Nat) : List Nat :=
  (List.range 65536).filter (fun v => decide (v ∈ xs) && decide (v ∈ ys))

/-- Modelled from the spec: the sorted set union of two decoded sequences —
the ascending enumeration of the universe values that occur in at least one
of the sequences. -/
def listUnion (xs ys : List Nat) : List Nat :=
  (List.range 65536).filter (fun v => decide (v ∈ xs) || decide (v ∈ ys))

/-! ## Popcount and single-bit lemmas -/

theorem popcountAux_eq_countP (k : Nat) : ∀ n : Nat,
    popcountAux k n = (List.range k).countP (fun i => n.testBit i) := by
  induction k with
  | zero => intro n; simp [popcountAux]
  | succ k ih =>
    intro n
    rw [popcountAux, List.range_succ_eq_map, List.countP_cons]
    have hmap : (List.map Nat.succ (List.range k)).countP (fun i => n.testBit i)
        = (List.range k).countP (fun i => (n / 2).testBit i) := by
      rw [List.countP_map]
      refine List.countP_congr (fun i _ => ?_)
      simp [Function.comp, Nat.testBit_succ]
    rw [hmap, ← ih (n / 2), Nat.testBit_zero]
    rcases Nat.mod_two_eq_zero_or_one n with h | h <;> simp [h] <;> omega

theorem popcountAux_le (k : Nat) : ∀ n : Nat, popcountAux k n ≤ k := by
  induction k with
  | zero => intro n; simp [popcountAux]
  | succ k ih =>
    intro n
    have := ih (n / 2)
    have h2 : n % 2 ≤ 1 := Nat.le_of_lt_succ (Nat.mod_lt _ (by norm_num))
    simp only [popcountAux]; omega

theorem count_ones_eq_countP (n : Nat) :
    count_ones n = (List.range 64).countP (fun i => n.testBit i) :=
  popcountAux_eq_countP 64 n

theorem count_ones_le (n : Nat) : count_ones n ≤ 64 := popcountAux_le 64 n

theorem testBit_eq_false_of_ge {n i : Nat} (hn : n < 2 ^ 64) (hi : 64 ≤ i) :
    n.testBit i = false :=
  Nat.testBit_eq_false_of_lt (lt_of_lt_of_le hn (Nat.pow_le_pow_right (by norm_num) hi))

theorem count_ones_eq_zero {n : Nat} (hn : n < 2 ^ 64) :
    count_ones n = 0 ↔ n = 0 := by
  constructor
  · intro h
    refine Nat.eq_of_testBit_eq (fun i => ?_)
    by_cases hi : i < 64
    · have hall := List.countP_eq_zero.mp (count_ones_eq_countP n ▸ h)
      have := hall i (List.mem_range.mpr hi)
      simpa using this
    · simp [testBit_eq_false_of_ge hn (le_of_not_lt hi)]
  · intro h; subst h; rfl

/-- The value `x &&& 2 ^ i` is the isolated bit. -/
theorem and_two_pow_eq (x i : Nat) :
    x &&& 2 ^ i = if x.testBit i then 2 ^ i else 0 := by
  refine Nat.eq_of_testBit_eq (fun j => ?_)
  by_cases h : i = j
  · subst h
    cases hb : x.testBit i <;> simp [Nat.testBit_land, Nat.testBit_two_pow, hb]
  · cases hb : x.testBit i <;>
      simp [Nat.testBit_land, Nat.testBit_two_pow, h, Nat.zero_testBit]

/-- The membership test of `contains` is the bit test. -/
theorem contains_eq_testBit (b : Bitmap) (v : Nat) :
    b.contains v = (b.store.getD (Bitmap.key v) 0).testBit (Bitmap.bit v) := by
  unfold Bitmap.contains
  rw [Nat.one_shiftLeft, and_two_pow_eq]
  cases h : (b.store.getD (Bitmap.key v) 0).testBit (Bitmap.bit v)
  · simp [h]
  · simp only [h, if_true]
    simpa using pow_ne_zero (Bitmap.bit v) (two_ne_zero)

/-- The XOR-derived delta of `insert`: 1 exactly when the bit was clear. -/
theorem insert_delta (w b : Nat) :
    (w ^^^ (w ||| (1 <<< b))) >>> b = if w.testBit b then 0 else 1 := by
  rw [Nat.one_shiftLeft]
  have hx : w ^^^ (w ||| 2 ^ b) = if w.testBit b then 0 else 2 ^ b := by
    refine Nat.eq_of_testBit_eq (fun j => ?_)
    by_cases h : b = j
    · subst h
      cases hb : w.testBit b <;>
        simp [Nat.testBit_xor, Nat.testBit_lor, Nat.testBit_two_pow, hb, Nat.zero_testBit]
    · cases hb : w.testBit b <;>
        simp [Nat.testBit_xor, Nat.testBit_lor, Nat.testBit_two_pow, h, Nat.zero_testBit]
  rw [hx]
  have hself : (2 : Nat) ^ b >>> b = 1 := by
    rw [Nat.shiftRight_eq_div_pow]
    exact Nat.div_self (Nat.pos_pow_of_pos b (by norm_num))
  cases hb : w.testBit b
  · simpa using hself
  · simp [Nat.shiftRight_eq_div_pow]

/-- The `u64` complement mask used by `remove`. -/
theorem mask_testBit (b j : Nat) :
    ((2 ^ 64 - 1) ^^^ (1 <<< b)).testBit j
      = (decide (j < 64) ^^ decide (b = j)) := by
  rw [Nat.one_shiftLeft, Nat.testBit_xor, Nat.testBit_two_pow_sub_one,
    Nat.testBit_two_pow]

/-- The XOR-derived delta of `remove`, for an in-range word: 1 exactly when
the bit was set. -/
theorem remove_delta (w b : Nat) (hw : w < 2 ^ 64) (hb : b < 64) :
    (w ^^^ (w &&& ((2 ^ 64 - 1) ^^^ (1 <<< b)))) >>> b
      = if w.testBit b then 1 else 0 := by
  have hx : w ^^^ (w &&& ((2 ^ 64 - 1) ^^^ (1 <<< b)))
      = if w.testBit b then 2 ^ b else 0 := by
    refine Nat.eq_of_testBit_eq (fun j => ?_)
    rw [Nat.testBit_xor, Nat.testBit_land, mask_testBit]
    by_cases hj : j < 64
    · by_cases h : b = j
      · subst h
        cases hbit : w.testBit b <;>
          simp [hbit, hj, Nat.testBit_two_pow, Nat.zero_testBit]
      · cases hbit : w.testBit b <;>
          simp [hj, h, Nat.testBit_two_pow, Nat.zero_testBit]
    · have hwj : w.testBit j = false := testBit_eq_false_of_ge hw (le_of_not_lt hj)
      have hbj : b ≠ j := by omega
      cases hbit : w.testBit b <;>
        simp [hwj, hj, Nat.testBit_two_pow, hbj, Nat.zero_testBit]
  rw [hx]
  have hself : (2 : Nat) ^ b >>> b = 1 := by
    rw [Nat.shiftRight_eq_div_pow]
    exact Nat.div_self (Nat.pos_pow_of_pos b (by norm_num))
  cases hbit : w.testBit b
  · simp [Nat.shiftRight_eq_div_pow]
  · simpa using hself

/-! ## Counting a predicate updated at a single point -/

theorem countP_or_single (l : List Nat) (p : Nat → Bool) (b : Nat)
    (hb : b ∈ l) (hnd : l.Nodup) :
    l.countP (fun i => p i || decide (b = i))
      = l.countP p + (if p b then 0 else 1) := by
  induction l with
  | nil => simp at hb
  | cons x xs ih =>
    rw [List.countP_cons, List.countP_cons]
    rcases List.nodup_cons.mp hnd with ⟨hx, hxs⟩
    by_cases hxb : b = x
    · subst hxb
      have heq : ∀ i ∈ xs, (p i || decide (b = i)) = p i := by
        intro i hi
        have : b ≠ i := fun h => hx (h ▸ hi)
        simp [this]
      have hrw : List.countP (fun i => p i || decide (b = i)) xs
          = List.countP p xs :=
        List.countP_congr (fun i hi => by simp only [heq i hi])
      rw [hrw]
      cases hpb : p b <;> simp [hpb]
    · have hbxs : b ∈ xs := by
        rcases List.mem_cons.mp hb with h | h
        · exact absurd h hxb
        · exact h
      rw [ih hbxs hxs]
      cases hpx : p x <;> cases hpb : p b <;> simp [hpx, hpb, hxb] <;> omega

theorem countP_and_single (l : List Nat) (p : Nat → Bool) (b : Nat)
    (hb : b ∈ l) (hnd : l.Nodup) :
    l.countP p
      = l.countP (fun i => p i && !decide (b = i)) + (if p b then 1 else 0) := by
  induction l with
  | nil => simp at hb
  | cons x xs ih =>
    rw [List.countP_cons, List.countP_cons]
    rcases List.nodup_cons.mp hnd with ⟨hx, hxs⟩
    by_cases hxb : b = x
    · subst hxb
      have heq : ∀ i ∈ xs, (p i && !decide (b = i)) = p i := by
        intro i hi
        have : b ≠ i := fun h => hx (h ▸ hi)
        simp [this]
      have hrw : List.countP (fun i => p i && !decide (b = i)) xs
          = List.countP p xs :=
        List.countP_congr (fun i hi => by simp only [heq i hi])
      rw [hrw]
      cases hpb : p b <;> simp [hpb]
    · have hbxs : b ∈ xs := by
        rcases List.mem_cons.mp hb with h | h
        · exact absurd h hxb
        · exact h
      rw [ih hbxs hxs]
      cases hpx : p x <;> cases hpb : p b <;> simp [hpx, hpb, hxb] <;> omega

/-- Popcount of a word after OR-ing in a single bit. -/
theorem count_ones_or (w b : Nat) (hb : b < 64) :
    count_ones (w ||| (1 <<< b))
      = count_ones w + (if w.testBit b then 0 else 1) := by
  rw [Nat.one_shiftLeft, count_ones_eq_countP, count_ones_eq_countP]
  have hcong : ∀ i ∈ List.range 64,
      ((w ||| 2 ^ b).testBit i) = (w.testBit i || decide (b = i)) := by
    intro i _
    rw [Nat.testBit_lor, Nat.testBit_two_pow]
  have hrw : (List.range 64).countP (fun i => (w ||| 2 ^ b).testBit i)
      = (List.range 64).countP (fun i => w.testBit i || decide (b = i)) :=
    List.countP_congr (fun i hi => by simp only [hcong i hi])
  rw [hrw]
  exact countP_or_single _ _ b (List.mem_range.mpr hb) (List.nodup_range 64)

/-- Popcount of a word after AND-ing with the complement of a single bit. -/
theorem count_ones_and_mask (w b : Nat) (hb : b < 64) :
    count_ones w
      = count_ones (w &&& ((2 ^ 64 - 1) ^^^ (1 <<< b)))
        + (if w.testBit b then 1 else 0) := by
  rw [count_ones_eq_countP, count_ones_eq_countP]
  have hcong : ∀ i ∈ List.range 64,
      ((w &&& ((2 ^ 64 - 1) ^^^ (1 <<< b))).testBit i)
        = (w.testBit i && !decide (b = i)) := by
    intro i hi
    have hi64 : i < 64 := List.mem_range.mp hi
    rw [Nat.testBit_land, mask_testBit]
    simp [hi64]
  have hrw : (List.range 64).countP
        (fun i => (w &&& ((2 ^ 64 - 1) ^^^ (1 <<< b))).testBit i)
      = (List.range 64).countP (fun i => w.testBit i && !decide (b = i)) :=
    List.countP_congr (fun i hi => by simp only [hcong i hi])
  rw [hrw]
  exact countP_and_single _ _ b (List.mem_range.mpr hb) (List.nodup_range 64)

/-! ## List index and sum helpers -/

theorem getD_set_self : ∀ (l : List Nat) (k x : Nat), k < l.length →
    (l.set k x).getD k 0 = x := by
  intro l
  induction l with
  | nil => intro k x h; simp at h
  | cons a as ih =>
    intro k x h
    cases k with
    | zero => rfl
    | succ k => exact ih k x (by simpa using Nat.lt_of_succ_lt_succ h)

theorem getD_set_ne : ∀ (l : List Nat) (k j x : Nat), k ≠ j →
    (l.set k x).getD j 0 = l.getD j 0 := by
  intro l
  induction l with
  | nil => intro k j x _; simp
  | cons a as ih =>
    intro k j x hkj
    cases k with
    | zero =>
      cases j with
      | zero => exact absurd rfl hkj
      | succ j => rfl
    | succ k =>
      cases j with
      | zero => rfl
      | succ j => exact ih k j x (fun h => hkj (by omega))

theorem sum_map_set (f : Nat → Nat) :
    ∀ (l : List Nat) (k x : Nat), k < l.length →
      ((l.set k x).map f).sum + f (l.getD k 0) = (l.map f).sum + f x := by
  intro l
  induction l with
  | nil => intro k x h; simp at h
  | cons a as ih =>
    intro k x h
    cases k with
    | zero => simp [List.set_cons_zero]; omega
    | succ k =>
      have := ih k x (by simpa using Nat.lt_of_succ_lt_succ h)
      simp only [List.set_cons_succ, List.map_cons, List.sum_cons,
        List.getD_cons_succ]
      omega

theorem getD_mem_or_default (l : List Nat) (k : Nat) :
    l.getD k 0 ∈ l ∨ l.getD k 0 = 0 := by
  by_cases h : k < l.length
  · left
    rw [List.getD_eq_getElem l 0 h]
    exact List.getElem_mem h
  · right
    rw [List.getD_eq_default l 0 (le_of_not_lt h)]

/-! ## Characterization of insert and remove -/

theorem bit_lt (v : Nat) : Bitmap.bit v < 64 := Nat.mod_lt _ (by norm_num)

theorem key_lt {v : Nat} (hv : v < 65536) : Bitmap.key v < 1024 :=
  Nat.div_lt_of_lt_mul (by omega)

theorem key_bit_inj {v w : Nat} (hk : Bitmap.key v = Bitmap.key w)
    (hb : Bitmap.bit v = Bitmap.bit w) : v = w := by
  have hv := Nat.div_add_mod v 64
  have hw := Nat.div_add_mod w 64
  unfold Bitmap.key at hk
  unfold Bitmap.bit at hb
  omega

theorem getD_lt {b : Bitmap} (hWF : b.WF) (k : Nat) :
    b.store.getD k 0 < 2 ^ 64 := by
  rcases getD_mem_or_default b.store k with h | h
  · exact hWF.2 _ h
  · rw [h]; exact Nat.pos_pow_of_pos 64 (by norm_num)

theorem insert_store (b : Bitmap) (v : Nat) :
    (b.insert v).1.store
      = b.store.set (Bitmap.key v)
          (b.store.getD (Bitmap.key v) 0 ||| (1 <<< Bitmap.bit v)) := rfl

theorem insert_snd (b : Bitmap) (v : Nat) :
    (b.insert v).2 = !b.contains v := by
  show ((b.store.getD (Bitmap.key v) 0
      ^^^ (b.store.getD (Bitmap.key v) 0 ||| (1 <<< Bitmap.bit v)))
        >>> Bitmap.bit v != 0) = !b.contains v
  rw [insert_delta, contains_eq_testBit]
  cases h : (b.store.getD (Bitmap.key v) 0).testBit (Bitmap.bit v) <;> simp [h]

theorem insert_len (b : Bitmap) (v : Nat) :
    (b.insert v).1.len = b.len + (if b.contains v then 0 else 1) := by
  show b.len + ((b.store.getD (Bitmap.key v) 0
      ^^^ (b.store.getD (Bitmap.key v) 0 ||| (1 <<< Bitmap.bit v)))
        >>> Bitmap.bit v) = _
  rw [insert_delta, contains_eq_testBit]

theorem remove_store (b : Bitmap) (v : Nat) :
    (b.remove v).1.store
      = b.store.set (Bitmap.key v)
          (b.store.getD (Bitmap.key v) 0
            &&& ((2 ^ 64 - 1) ^^^ (1 <<< Bitmap.bit v))) := rfl

theorem remove_snd (b : Bitmap) (v : Nat) (hWF : b.WF) :
    (b.remove v).2 = b.contains v := by
  show ((b.store.getD (Bitmap.key v) 0
      ^^^ (b.store.getD (Bitmap.key v) 0
            &&& ((2 ^ 64 - 1) ^^^ (1 <<< Bitmap.bit v))))
        >>> Bitmap.bit v != 0) = b.contains v
  rw [remove_delta _ _ (getD_lt hWF _) (bit_lt v), contains_eq_testBit]
  cases h : (b.store.getD (Bitmap.key v) 0).testBit (Bitmap.bit v) <;> simp [h]

theorem remove_len (b : Bitmap) (v : Nat) (hWF : b.WF) :
    (b.remove v).1.len = b.len - (if b.contains v then 1 else 0) := by
  show b.len - ((b.store.getD (Bitmap.key v) 0
      ^^^ (b.store.getD (Bitmap.key v) 0
            &&& ((2 ^ 64 - 1) ^^^ (1 <<< Bitmap.bit v))))
        >>> Bitmap.bit v) = _
  rw [remove_delta _ _ (getD_lt hWF _) (bit_lt v), contains_eq_testBit]

theorem insert_contains_self (b : Bitmap) (v : Nat) (hWF : b.WF)
    (hv : v < 65536) : (b.insert v).1.contains v = true := by
  rw [contains_eq_testBit, insert_store,
    getD_set_self _ _ _ (by rw [hWF.1]; exact key_lt hv)]
  rw [Nat.one_shiftLeft, Nat.testBit_lor, Nat.testBit_two_pow]
  simp

theorem remove_contains_self (b : Bitmap) (v : Nat) (hWF : b.WF)
    (hv : v < 65536) : (b.remove v).1.contains v = false := by
  rw [contains_eq_testBit, remove_store,
    getD_set_self _ _ _ (by rw [hWF.1]; exact key_lt hv)]
  rw [Nat.testBit_land, mask_testBit]
  simp [bit_lt v]

theorem insert_inv (b : Bitmap) (v : Nat) (hWF : b.WF) (hInv : b.Inv)
    (hv : v < 65536) : (b.insert v).1.Inv := by
  have hk : Bitmap.key v < b.store.length := by rw [hWF.1]; exact key_lt hv
  have hsum := sum_map_set count_ones b.store (Bitmap.key v)
    (b.store.getD (Bitmap.key v) 0 ||| (1 <<< Bitmap.bit v)) hk
  have hor := count_ones_or (b.store.getD (Bitmap.key v) 0) (Bitmap.bit v)
    (bit_lt v)
  rw [← contains_eq_testBit] at hor
  unfold Bitmap.Inv popsum at hInv ⊢
  rw [insert_len b v, insert_store]
  cases hc : b.contains v <;> rw [hc] at hor <;>
    simp only [Bool.false_eq_true, if_true, if_false] at hor ⊢ <;> omega

/-- A set bit contributes at least one to the total popcount. -/
theorem popsum_pos_of_contains (b : Bitmap) (v : Nat) (hWF : b.WF)
    (hv : v < 65536) (hc : b.contains v = true) : 1 ≤ popsum b.store := by
  have hk : Bitmap.key v < b.store.length := by rw [hWF.1]; exact key_lt hv
  have hmem : b.store.getD (Bitmap.key v) 0 ∈ b.store := by
    rw [List.getD_eq_getElem b.store 0 hk]
    exact List.getElem_mem hk
  have h1 : 1 ≤ count_ones (b.store.getD (Bitmap.key v) 0) := by
    rw [contains_eq_testBit] at hc
    rw [count_ones_eq_countP]
    refine List.countP_pos.mpr ?_
    exact ⟨Bitmap.bit v, List.mem_range.mpr (bit_lt v), hc⟩
  have h2 : count_ones (b.store.getD (Bitmap.key v) 0) ≤ popsum b.store := by
    refine List.single_le_sum (fun x _ => Nat.zero_le x) _ ?_
    exact List.mem_map.mpr ⟨_, hmem, rfl⟩
  omega

theorem remove_inv (b : Bitmap) (v : Nat) (hWF : b.WF) (hInv : b.Inv)
    (hv : v < 65536) : (b.remove v).1.Inv := by
  have hk : Bitmap.key v < b.store.length := by rw [hWF.1]; exact key_lt hv
  have hsum := sum_map_set count_ones b.store (Bitmap.key v)
    (b.store.getD (Bitmap.key v) 0 &&& ((2 ^ 64 - 1) ^^^ (1 <<< Bitmap.bit v))) hk
  have hand := count_ones_and_mask (b.store.getD (Bitmap.key v) 0) (Bitmap.bit v)
    (bit_lt v)
  rw [← contains_eq_testBit] at hand
  have hpos := popsum_pos_of_contains b v hWF hv
  unfold popsum at hpos
  unfold Bitmap.Inv popsum at hInv ⊢
  rw [remove_len b v hWF, remove_store]
  cases hc : b.contains v
  · rw [hc] at hand
    simp only [Bool.false_eq_true, if_true, if_false] at hand ⊢
    omega
  · have hp := hpos hc
    rw [hc] at hand
    simp only [if_true] at hand ⊢
    omega

/-! ## Frame lemmas: insert and remove touch only their own bit -/

theorem insert_contains_other (b : Bitmap) (v w : Nat) (hne : w ≠ v)
    (hv : v < 65536) (hw : w < 65536) :
    (b.insert v).1.contains w = b.contains w := by
  rw [contains_eq_testBit, contains_eq_testBit, insert_store]
  by_cases hkey : Bitmap.key w = Bitmap.key v
  · rw [hkey]
    by_cases hlen : Bitmap.key v < b.store.length
    · rw [getD_set_self _ _ _ hlen]
      have hbit : Bitmap.bit v ≠ Bitmap.bit w :=
        fun h => hne (key_bit_inj hkey.symm h).symm
      rw [Nat.one_shiftLeft, Nat.testBit_lor, Nat.testBit_two_pow]
      simp [hbit]
    · rw [List.set_eq_of_length_le (le_of_not_lt hlen)]
  · rw [getD_set_ne _ _ _ _ (fun h => hkey h.symm)]

theorem remove_contains_other (b : Bitmap) (v w : Nat) (hne : w ≠ v)
    (hv : v < 65536) (hw : w < 65536) :
    (b.remove v).1.contains w = b.contains w := by
  rw [contains_eq_testBit, contains_eq_testBit, remove_store]
  by_cases hkey : Bitmap.key w = Bitmap.key v
  · rw [hkey]
    by_cases hlen : Bitmap.key v < b.store.length
    · rw [getD_set_self _ _ _ hlen]
      have hbit : Bitmap.bit v ≠ Bitmap.bit w :=
        fun h => hne (key_bit_inj hkey.symm h).symm
      rw [Nat.testBit_land, mask_testBit]
      simp [bit_lt w, hbit]
    · rw [List.set_eq_of_length_le (le_of_not_lt hlen)]
  · rw [getD_set_ne _ _ _ _ (fun h => hkey h.symm)]

/-! ## Construction invariants -/

theorem count_ones_zero : count_ones 0 = 0 := rfl

theorem count_ones_allOnes : count_ones (2 ^ 64 - 1) = 64 := by decide

theorem new_inv : Bitmap.new.Inv := by
  unfold Bitmap.Inv Bitmap.new popsum
  rw [List.map_replicate, List.sum_replicate, count_ones_zero]
  simp

theorem full_inv : Bitmap.full.Inv := by
  unfold Bitmap.Inv Bitmap.full popsum
  rw [List.map_replicate, List.sum_replicate, count_ones_allOnes,
    smul_eq_mul]

theorem new_WF : Bitmap.new.WF := by
  refine ⟨List.length_replicate 1024 0, fun w hw => ?_⟩
  have hw2 : w ∈ List.replicate 1024 (0 : Nat) := hw
  rw [(List.mem_replicate.mp hw2).2]
  exact Nat.pos_pow_of_pos 64 (by norm_num)

theorem full_WF : Bitmap.full.WF := by
  refine ⟨List.length_replicate 1024 (2 ^ 64 - 1), fun w hw => ?_⟩
  have hw2 : w ∈ List.replicate 1024 (2 ^ 64 - 1) := hw
  rw [(List.mem_replicate.mp hw2).2]
  omega

/-! ## Scalar intersection and union -/

theorem intersection_inv (a b : Bitmap) : (a.intersection b).Inv := rfl

theorem bitor_inv (a b : Bitmap) : (a.bitor b).Inv := rfl

theorem getD_zipWith (f : Nat → Nat → Nat) (hf : f 0 0 = 0) :
    ∀ (xs ys : List Nat), xs.length = ys.length →
      ∀ i, (List.zipWith f xs ys).getD i 0 = f (xs.getD i 0) (ys.getD i 0) := by
  intro xs
  induction xs with
  | nil =>
    intro ys h i
    have : ys = [] := List.length_eq_zero.mp (by simpa using h.symm)
    subst this
    simpa using hf.symm
  | cons x xs ih =>
    intro ys h i
    cases ys with
    | nil => simp at h
    | cons y ys =>
      cases i with
      | zero => rfl
      | succ i =>
        simpa using ih ys (by simpa using h) i

theorem intersection_contains (a b : Bitmap) (v : Nat)
    (hlen : a.store.length = b.store.length) :
    (a.intersection b).contains v = (a.contains v && b.contains v) := by
  rw [contains_eq_testBit, contains_eq_testBit, contains_eq_testBit]
  have hst : (a.intersection b).store
      = List.zipWith (fun x y => x &&& y) a.store b.store := rfl
  rw [hst, getD_zipWith (fun x y => x &&& y) rfl a.store b.store hlen,
    Nat.testBit_land]

theorem bitor_contains (a b : Bitmap) (v : Nat)
    (hlen : a.store.length = b.store.length) :
    (a.bitor b).contains v = (a.contains v || b.contains v) := by
  rw [contains_eq_testBit, contains_eq_testBit, contains_eq_testBit]
  have hst : (a.bitor b).store
      = List.zipWith (fun x y => x ||| y) a.store b.store := rfl
  rw [hst, getD_zipWith (fun x y => x ||| y) rfl a.store b.store hlen,
    Nat.testBit_lor]

/-! ## The SIMD intersection agrees with the scalar one -/

theorem countP_range_mul (k : Nat) (p : Nat → Bool) : ∀ m : Nat,
    (List.range (k * m)).countP p
      = ((List.range m).map
          (fun i => (List.range k).countP (fun j => p (k * i + j)))).sum := by
  intro m
  induction m with
  | zero => simp
  | succ m ih =>
    rw [Nat.mul_succ, List.range_add, List.countP_append, ih, List.range_succ,
      List.map_append, List.sum_append, List.countP_map]
    simp only [List.map_cons, List.map_nil, List.sum_cons, List.sum_nil,
      Nat.add_zero]
    rfl

theorem popsum_cons (x : Nat) (l : List Nat) :
    popsum (x :: l) = count_ones x + popsum l := by
  unfold popsum
  rw [List.map_cons, List.sum_cons]

theorem count_ones_byte (w i : Nat) :
    count_ones ((w >>> (8 * i)) &&& 255)
      = (List.range 8).countP (fun j => w.testBit (8 * i + j)) := by
  rw [count_ones_eq_countP]
  have h64 : (64 : Nat) = 8 + 56 := by norm_num
  rw [h64, List.range_add, List.countP_append]
  have h1 : (List.range 8).countP (fun j => ((w >>> (8 * i)) &&& 255).testBit j)
      = (List.range 8).countP (fun j => w.testBit (8 * i + j)) := by
    refine List.countP_congr (fun j hj => ?_)
    have hj8 : j < 8 := List.mem_range.mp hj
    have h255 : (255 : Nat) = 2 ^ 8 - 1 := by norm_num
    rw [Nat.testBit_land, h255, Nat.testBit_two_pow_sub_one,
      Nat.testBit_shiftRight]
    simp [hj8]
  have h2 : (List.map (fun x => 8 + x) (List.range 56)).countP
      (fun j => ((w >>> (8 * i)) &&& 255).testBit j) = 0 := by
    rw [List.countP_map]
    refine List.countP_eq_zero.mpr (fun j _ => ?_)
    have h256 : (255 : Nat) < 2 ^ 8 := by norm_num
    have hle : (2 : Nat) ^ 8 ≤ 2 ^ (8 + j) :=
      Nat.pow_le_pow_right (by norm_num) (by omega)
    have h255 : (255 : Nat).testBit (8 + j) = false :=
      Nat.testBit_eq_false_of_lt (lt_of_lt_of_le h256 hle)
    simp [Function.comp, Nat.testBit_land, h255]
  rw [h1, h2]
  omega

theorem toBytes_sum (w : Nat) :
    ((Bitmap.toBytes w).map count_ones).sum = count_ones w := by
  have h1 : (Bitmap.toBytes w).map count_ones
      = (List.range 8).map
          (fun i => (List.range 8).countP (fun j => w.testBit (8 * i + j))) := by
    unfold Bitmap.toBytes
    rw [List.map_map]
    exact List.map_congr_left (fun i _ => count_ones_byte w i)
  rw [h1, count_ones_eq_countP]
  have h64 : (64 : Nat) = 8 * 8 := by norm_num
  rw [h64, countP_range_mul 8 (fun i => w.testBit i) 8]

theorem laneCount_eq (r0 r1 : Nat) :
    Bitmap.laneCount r0 r1 = count_ones r0 + count_ones r1 := by
  unfold Bitmap.laneCount
  rw [List.map_append, List.sum_append, toBytes_sum, toBytes_sum]
  exact Nat.mod_eq_of_lt
    (lt_of_le_of_lt (Nat.add_le_add (count_ones_le r0) (count_ones_le r1))
      (by norm_num))

theorem simdLoop_eq : ∀ (n : Nat) (xs ys : List Nat),
    xs.length = 2 * n → ys.length = 2 * n →
    Bitmap.simdLoop xs ys
      = (List.zipWith (fun x y => x &&& y) xs ys,
          popsum (List.zipWith (fun x y => x &&& y) xs ys)) := by
  intro n
  induction n with
  | zero =>
    intro xs ys hx hy
    have hx0 : xs = [] := List.length_eq_zero.mp (by omega)
    have hy0 : ys = [] := List.length_eq_zero.mp (by omega)
    subst hx0; subst hy0
    rfl
  | succ n ih =>
    intro xs ys hx hy
    cases xs with
    | nil => simp only [List.length_nil] at hx; omega
    | cons x0 xs1 =>
      cases xs1 with
      | nil => simp only [List.length_cons, List.length_nil] at hx; omega
      | cons x1 xs2 =>
        cases ys with
        | nil => simp only [List.length_nil] at hy; omega
        | cons y0 ys1 =>
          cases ys1 with
          | nil => simp only [List.length_cons, List.length_nil] at hy; omega
          | cons y1 ys2 =>
            have hx2 : xs2.length = 2 * n := by
              simp only [List.length_cons] at hx; omega
            have hy2 : ys2.length = 2 * n := by
              simp only [List.length_cons] at hy; omega
            simp only [Bitmap.simdLoop]
            rw [ih xs2 ys2 hx2 hy2]
            simp only [List.zipWith_cons_cons, Prod.mk.injEq]
            refine ⟨trivial, ?_⟩
            rw [laneCount_eq, popsum_cons, popsum_cons]
            omega

/-- The two intersection paths produce identical stores and cardinalities. -/
theorem intersection_simd_eq (a b : Bitmap) (ha : a.WF) (hb : b.WF) :
    a.intersection_simd b = a.intersection b := by
  unfold Bitmap.intersection_simd Bitmap.intersection
  rw [simdLoop_eq 512 a.store b.store (by rw [ha.1]) (by rw [hb.1])]

theorem intersection_simd_inv (a b : Bitmap) (ha : a.WF) (hb : b.WF) :
    (a.intersection_simd b).Inv := by
  rw [intersection_simd_eq a b ha hb]
  exact intersection_inv a b


/-! ## The inner bit loop of to_vec -/

theorem wordBits_length : ∀ (k cur idx : Nat),
    (Bitmap.wordBits k cur idx).1.length = popcountAux k cur := by
  intro k
  induction k with
  | zero => intro cur idx; rfl
  | succ k ih =>
    intro cur idx
    simp only [Bitmap.wordBits, List.length_append, popcountAux]
    rcases Nat.mod_two_eq_zero_or_one cur with h | h <;>
      simp [h, ih (cur / 2) (Bitmap.satSucc idx)]

theorem wordBits_snd : ∀ (k cur idx : Nat), idx ≤ 65535 →
    (Bitmap.wordBits k cur idx).2 = min (idx + k) 65535 := by
  intro k
  induction k with
  | zero =>
    intro cur idx h
    simp only [Bitmap.wordBits]
    omega
  | succ k ih =>
    intro cur idx h
    simp only [Bitmap.wordBits]
    rw [ih (cur / 2) (Bitmap.satSucc idx) (by unfold Bitmap.satSucc; omega)]
    unfold Bitmap.satSucc
    omega

theorem wordBits_snd_add (cur idx : Nat) (h : idx + 64 ≤ 65535) :
    (Bitmap.wordBits 64 cur idx).2 = idx + 64 := by
  rw [wordBits_snd 64 cur idx (by omega)]
  omega

theorem wordBits_fst : ∀ (k cur idx : Nat), idx + k ≤ 65536 →
    (Bitmap.wordBits k cur idx).1
      = ((List.range k).filter (fun i => cur.testBit i)).map
          (fun i => idx + i) := by
  intro k
  induction k with
  | zero => intro cur idx _; rfl
  | succ k ih =>
    intro cur idx hidx
    simp only [Bitmap.wordBits]
    have hhead : (if cur % 2 = 1 then [idx] else [])
        = if cur.testBit 0 then [idx] else [] := by
      rw [Nat.testBit_zero]
      rcases Nat.mod_two_eq_zero_or_one cur with h | h <;> simp [h]
    have hrange : List.range (k + 1) = 0 :: List.map Nat.succ (List.range k) :=
      List.range_succ_eq_map k
    rw [hhead, hrange, List.filter_cons]
    rcases Nat.eq_zero_or_pos k with hk | hk
    · subst hk
      cases h0 : cur.testBit 0 <;> simp [Bitmap.wordBits, h0]
    · have hsat : Bitmap.satSucc idx = idx + 1 := by
        unfold Bitmap.satSucc; omega
      have htail : (Bitmap.wordBits k (cur / 2) (Bitmap.satSucc idx)).1
          = ((List.range k).filter (fun i => cur.testBit (i + 1))).map
              (fun i => idx + (i + 1)) := by
        rw [hsat, ih (cur / 2) (idx + 1) (by omega)]
        have hp : ∀ i, (cur / 2).testBit i = cur.testBit (i + 1) :=
          fun i => Nat.testBit_div_two cur i
        have hfil : (List.range k).filter (fun i => (cur / 2).testBit i)
            = (List.range k).filter (fun i => cur.testBit (i + 1)) :=
          List.filter_congr (fun i _ => hp i)
        rw [hfil]
        exact List.map_congr_left (fun i _ => by omega)
      have hmap : List.filter (fun i => cur.testBit i)
            (List.map Nat.succ (List.range k))
          = List.map Nat.succ
              ((List.range k).filter (fun i => cur.testBit (i + 1))) := by
        rw [List.filter_map]
        rfl
      cases h0 : cur.testBit 0
      · simp only [if_neg (by simp [h0] : ¬(cur.testBit 0 = true)),
          Bool.false_eq_true, if_false, List.nil_append]
        rw [htail, hmap, List.map_map]
        exact List.map_congr_left (fun i _ => by simp [Function.comp])
      · have hrhs : List.map (fun i => idx + i)
            (0 :: List.map Nat.succ
              ((List.range k).filter (fun i => cur.testBit (i + 1))))
            = idx :: List.map (fun i => idx + (i + 1))
                ((List.range k).filter (fun i => cur.testBit (i + 1))) := by
          rw [List.map_cons, List.map_map]
          refine congrArg₂ List.cons (by simp) ?_
          exact List.map_congr_left
            (fun i _ => by simp [Function.comp, Nat.succ_eq_add_one])
        rw [htail, hmap]
        simp [hrhs]

/-! ## The word loop of to_vec: closed form -/

theorem popsum_nil : popsum [] = 0 := rfl

theorem bitsOf_cons_lt (cur : Nat) (rest : List Nat) (i : Nat) (hi : i < 64) :
    bitsOf (cur :: rest) i = cur.testBit i := by
  unfold bitsOf
  rw [Nat.div_eq_of_lt hi, Nat.mod_eq_of_lt hi, List.getD_cons_zero]

theorem bitsOf_cons_ge (cur : Nat) (rest : List Nat) (i : Nat) :
    bitsOf (cur :: rest) (64 + i) = bitsOf rest i := by
  unfold bitsOf
  have hdiv : (64 + i) / 64 = 1 + i / 64 := by
    have : (64 * 1 + i) / 64 = 1 + i / 64 := Nat.mul_add_div (by norm_num) 1 i
    simpa using this
  have hmod : (64 + i) % 64 = i % 64 := Nat.add_mod_left 64 i
  rw [hdiv, hmod, Nat.add_comm 1 (i / 64), List.getD_cons_succ]

theorem bitsOf_false_of_popsum_zero (ws : List Nat)
    (hb : ∀ w ∈ ws, w < 2 ^ 64) (h : popsum ws = 0) (i : Nat) :
    bitsOf ws i = false := by
  unfold bitsOf
  rcases getD_mem_or_default ws (i / 64) with hm | hd
  · have hcz : count_ones (ws.getD (i / 64) 0) = 0 := by
      have := List.sum_eq_zero_iff.mp h
      exact this _ (List.mem_map.mpr ⟨_, hm, rfl⟩)
    have : ws.getD (i / 64) 0 = 0 :=
      (count_ones_eq_zero (hb _ hm)).mp hcz
    rw [this]
    exact Nat.zero_testBit _
  · rw [hd]
    exact Nat.zero_testBit _

theorem filter_bitsOf_split (cur : Nat) (rest : List Nat) :
    (List.range (64 * (rest.length + 1))).filter (bitsOf (cur :: rest))
      = ((List.range 64).filter (fun i => cur.testBit i))
        ++ (((List.range (64 * rest.length)).filter (bitsOf rest)).map
              (fun i => 64 + i)) := by
  have h1 : 64 * (rest.length + 1) = 64 + 64 * rest.length := by ring
  rw [h1, List.range_add, List.filter_append]
  have hA : (List.range 64).filter (bitsOf (cur :: rest))
      = (List.range 64).filter (fun i => cur.testBit i) :=
    List.filter_congr
      (fun i hi => bitsOf_cons_lt cur rest i (List.mem_range.mp hi))
  have hB : ((List.range (64 * rest.length)).map (fun i => 64 + i)).filter
        (bitsOf (cur :: rest))
      = ((List.range (64 * rest.length)).filter (bitsOf rest)).map
          (fun i => 64 + i) := by
    rw [List.filter_map]
    have hcong : (List.range (64 * rest.length)).filter
          (bitsOf (cur :: rest) ∘ fun i => 64 + i)
        = (List.range (64 * rest.length)).filter (bitsOf rest) :=
      List.filter_congr (fun i _ => bitsOf_cons_ge cur rest i)
    rw [hcong]
  rw [hA, hB]

theorem toVecGo_spec : ∀ (ws : List Nat) (idx : Nat) (ret : List Nat)
    (len : Nat),
    idx + 64 * ws.length = 65536 →
    (∀ w ∈ ws, w < 2 ^ 64) →
    len = ret.length + popsum ws →
    Bitmap.toVecGo len ws idx ret
      = ret ++ ((List.range (64 * ws.length)).filter (bitsOf ws)).map
          (fun i => idx + i) := by
  intro ws
  induction ws with
  | nil =>
    intro idx ret len _ _ _
    simp [Bitmap.toVecGo]
  | cons cur rest ih =>
    intro idx ret len hbound hwords hlen
    have hboundc : idx + 64 * (rest.length + 1) = 65536 := by
      simpa using hbound
    have hcur64 : cur < 2 ^ 64 := hwords cur (List.mem_cons_self cur rest)
    have hrest : ∀ w ∈ rest, w < 2 ^ 64 :=
      fun w hw => hwords w (List.mem_cons_of_mem cur hw)
    have hlenc : len = ret.length + (count_ones cur + popsum rest) := by
      rw [hlen, popsum_cons]
    have hsplit := filter_bitsOf_split cur rest
    have hlength : (cur :: rest).length = rest.length + 1 := rfl
    rw [hlength]
    simp only [Bitmap.toVecGo]
    by_cases hz : count_ones cur ≠ 0
    · rw [if_pos hz]
      have hw1 : (Bitmap.wordBits 64 cur idx).1
          = ((List.range 64).filter (fun i => cur.testBit i)).map
              (fun i => idx + i) :=
        wordBits_fst 64 cur idx (by omega)
      have hwlen : (ret ++ (Bitmap.wordBits 64 cur idx).1).length
          = ret.length + count_ones cur := by
        rw [List.length_append, wordBits_length]
        rfl
      by_cases hbrk : (ret ++ (Bitmap.wordBits 64 cur idx).1).length = len
      · rw [if_pos hbrk]
        have hrz : popsum rest = 0 := by omega
        have hfe : (List.range (64 * rest.length)).filter (bitsOf rest)
            = [] :=
          List.filter_eq_nil.mpr
            (fun i _ => by
              simp [bitsOf_false_of_popsum_zero rest hrest hrz i])
        rw [hsplit, hfe, hw1]
        simp
      · rw [if_neg hbrk]
        cases rest with
        | nil =>
          show (ret ++ (Bitmap.wordBits 64 cur idx).1) = _
          rw [hsplit, hw1]
          simp
        | cons r0 rs =>
          have hlon : (r0 :: rs).length = rs.length + 1 := rfl
          rw [hlon] at hboundc
          have hsnd : (Bitmap.wordBits 64 cur idx).2 = idx + 64 :=
            wordBits_snd_add cur idx (by omega)
          have hih := ih (idx + 64) (ret ++ (Bitmap.wordBits 64 cur idx).1)
            len (by omega) hrest (by rw [hwlen]; omega)
          rw [hsnd, hih, hsplit, hw1]
          have hmapc : (((List.range (64 * (r0 :: rs).length)).filter
                (bitsOf (r0 :: rs))).map (fun i => 64 + i)).map
                  (fun i => idx + i)
              = ((List.range (64 * (r0 :: rs).length)).filter
                  (bitsOf (r0 :: rs))).map (fun i => idx + 64 + i) := by
            rw [List.map_map]
            exact List.map_congr_left (fun i _ => by simp [Function.comp]; omega)
          rw [List.map_append, hmapc, List.append_assoc]
    · rw [if_neg hz]
      have hz0 : count_ones cur = 0 := by omega
      have hcur0 : cur = 0 := (count_ones_eq_zero hcur64).mp hz0
      have hfeA : (List.range 64).filter (fun i => cur.testBit i) = [] :=
        List.filter_eq_nil.mpr
          (fun i _ => by simp [hcur0, Nat.zero_testBit])
      by_cases hbrk : ret.length = len
      · rw [if_pos hbrk]
        have hrz : popsum rest = 0 := by omega
        have hfe : (List.range (64 * rest.length)).filter (bitsOf rest)
            = [] :=
          List.filter_eq_nil.mpr
            (fun i _ => by
              simp [bitsOf_false_of_popsum_zero rest hrest hrz i])
        rw [hsplit, hfeA, hfe]
        simp
      · rw [if_neg hbrk]
        have hih := ih (idx + 64) ret len (by omega) hrest (by omega)
        rw [hih, hsplit, hfeA]
        have hmapc : (((List.range (64 * rest.length)).filter
              (bitsOf rest)).map (fun i => 64 + i)).map (fun i => idx + i)
            = ((List.range (64 * rest.length)).filter
                (bitsOf rest)).map (fun i => idx + 64 + i) := by
          rw [List.map_map]
          exact List.map_congr_left (fun i _ => by simp [Function.comp]; omega)
        rw [List.map_append, hmapc]
        simp

/-! ## Decode: closed form, ordering, cardinality -/

theorem map_range_getD (f : Nat → Nat) :
    ∀ l : List Nat,
      (List.range l.length).map (fun i => f (l.getD i 0)) = l.map f := by
  intro l
  induction l with
  | nil => rfl
  | cons x xs ih =>
    have hr : List.range (x :: xs).length
        = 0 :: List.map Nat.succ (List.range xs.length) :=
      List.range_succ_eq_map xs.length
    rw [hr, List.map_cons, List.map_map]
    have hc : (List.range xs.length).map
          ((fun i => f ((x :: xs).getD i 0)) ∘ Nat.succ)
        = (List.range xs.length).map (fun i => f (xs.getD i 0)) :=
      List.map_congr_left (fun i _ => by simp [Function.comp])
    rw [hc, ih]
    rfl

theorem bitsOf_eq_contains (b : Bitmap) (v : Nat) :
    bitsOf b.store v = b.contains v := (contains_eq_testBit b v).symm

/-- Under the cardinality invariant, `to_vec` decodes the store to the
ascending list of all members of the set. -/
theorem to_vec_eq (b : Bitmap) (hWF : b.WF) (hInv : b.Inv) :
    b.to_vec = (List.range 65536).filter (fun v => b.contains v) := by
  unfold Bitmap.to_vec
  have hspec := toVecGo_spec b.store 0 [] b.len
    (by rw [hWF.1])
    hWF.2
    (by simpa using hInv)
  rw [hspec, hWF.1]
  have hfc : (List.range (64 * 1024)).filter (bitsOf b.store)
      = (List.range 65536).filter (fun v => b.contains v) := by
    have h1 : (64 : Nat) * 1024 = 65536 := by norm_num
    rw [h1]
    exact List.filter_congr (fun v _ => bitsOf_eq_contains b v)
  rw [hfc]
  have hid : ((List.range 65536).filter (fun v => b.contains v)).map
        (fun i => 0 + i)
      = ((List.range 65536).filter (fun v => b.contains v)).map id := by
    exact List.map_congr_left (fun i _ => by simp)
  rw [hid, List.map_id, List.nil_append]

/-- The number of members equals the total popcount of the store. -/
theorem countP_contains (b : Bitmap) (hWF : b.WF) :
    (List.range 65536).countP (fun v => b.contains v) = popsum b.store := by
  have h1 : (65536 : Nat) = 64 * 1024 := by norm_num
  rw [h1, countP_range_mul 64 (fun v => b.contains v) 1024]
  have hper : ∀ i ∈ List.range 1024,
      (List.range 64).countP (fun j => b.contains (64 * i + j))
        = count_ones (b.store.getD i 0) := by
    intro i _
    rw [count_ones_eq_countP]
    refine List.countP_congr (fun j hj => ?_)
    have hj64 : j < 64 := List.mem_range.mp hj
    have hkey : Bitmap.key (64 * i + j) = i := by
      unfold Bitmap.key
      rw [Nat.mul_add_div (by norm_num), Nat.div_eq_of_lt hj64]
      omega
    have hbit : Bitmap.bit (64 * i + j) = j := by
      unfold Bitmap.bit
      rw [Nat.mul_add_mod, Nat.mod_eq_of_lt hj64]
    rw [contains_eq_testBit, hkey, hbit]
  have hmc : (List.range 1024).map
        (fun i => (List.range 64).countP (fun j => b.contains (64 * i + j)))
      = (List.range 1024).map (fun i => count_ones (b.store.getD i 0)) :=
    List.map_congr_left hper
  rw [hmc]
  have hlen : (1024 : Nat) = b.store.length := hWF.1.symm
  rw [hlen, map_range_getD count_ones b.store]
  rfl

/-! ## The checked decode never overflows the u16 cursor -/

theorem wordBits_snd_le (cur idx : Nat) (h : idx ≤ 65535) :
    (Bitmap.wordBits 64 cur idx).2 ≤ idx + 64 := by
  rw [wordBits_snd 64 cur idx h]
  omega

theorem wordBits_snd_ge (cur idx : Nat) (h : idx + 64 ≤ 65535) :
    idx + 64 ≤ (Bitmap.wordBits 64 cur idx).2 := by
  rw [wordBits_snd 64 cur idx (by omega)]
  omega

theorem toVecGoChk_eq : ∀ (ws : List Nat) (idx : Nat) (ret : List Nat)
    (len : Nat),
    idx + 64 * ws.length ≤ 65536 →
    len = ret.length + popsum ws →
    (ret.length ≠ len ∨ 2 ≤ ws.length ∨ ws = []) →
    Bitmap.toVecGoChk len ws idx ret = some (Bitmap.toVecGo len ws idx ret) := by
  intro ws
  induction ws with
  | nil => intro idx ret len _ _ _; rfl
  | cons cur rest ih =>
    intro idx ret len hbound hlen hside
    have hboundc : idx + 64 * (rest.length + 1) ≤ 65536 := by
      simpa using hbound
    have hlenc : len = ret.length + (count_ones cur + popsum rest) := by
      rw [hlen, popsum_cons]
    simp only [Bitmap.toVecGoChk, Bitmap.toVecGo]
    by_cases hz : count_ones cur ≠ 0
    · rw [if_pos hz, if_pos hz]
      have hwlen : (ret ++ (Bitmap.wordBits 64 cur idx).1).length
          = ret.length + count_ones cur := by
        rw [List.length_append, wordBits_length]
        rfl
      by_cases hbrk : (ret ++ (Bitmap.wordBits 64 cur idx).1).length = len
      · rw [if_pos hbrk, if_pos hbrk]
      · rw [if_neg hbrk, if_neg hbrk]
        have hsndle : (Bitmap.wordBits 64 cur idx).2 ≤ idx + 64 :=
          wordBits_snd_le cur idx (by omega)
        exact ih (Bitmap.wordBits 64 cur idx).2
          (ret ++ (Bitmap.wordBits 64 cur idx).1) len
          (by omega) (by rw [hwlen]; omega) (Or.inl hbrk)
    · rw [if_neg hz, if_neg hz]
      have hz0 : count_ones cur = 0 := by omega
      have hguard : idx + 64 ≤ 65535 := by
        rcases hside with hne | h2 | hnil
        · rcases Nat.eq_zero_or_pos rest.length with hr | hr
          · exfalso
            have hrz : popsum rest = 0 := by
              have : rest = [] := List.length_eq_zero.mp hr
              rw [this, popsum_nil]
            omega
          · omega
        · have h2c : 2 ≤ rest.length + 1 := by simpa using h2
          omega
        · exact absurd hnil (by simp)
      rw [if_pos hguard]
      by_cases hbrk : ret.length = len
      · rw [if_pos hbrk, if_pos hbrk]
      · rw [if_neg hbrk, if_neg hbrk]
        exact ih (idx + 64) ret len (by omega) (by omega) (Or.inl hbrk)

/-! ## Bulk construction: fold of insertions, order independence -/

theorem bitmap_eq : ∀ (x y : Bitmap), x.len = y.len → x.store = y.store →
    x = y := by
  intro x y h1 h2
  cases x
  cases y
  congr 1

theorem insert_comm (b : Bitmap) (v w : Nat) (hv : v < 65536)
    (hw : w < 65536) :
    ((b.insert v).1.insert w).1 = ((b.insert w).1.insert v).1 := by
  by_cases hvw : v = w
  · subst hvw; rfl
  · refine bitmap_eq _ _ ?_ ?_
    · rw [insert_len, insert_len, insert_len, insert_len,
        insert_contains_other b v w (fun h => hvw h.symm) hv hw,
        insert_contains_other b w v hvw hw hv]
      cases b.contains v <;> cases b.contains w <;> simp
    · rw [insert_store, insert_store, insert_store, insert_store]
      by_cases hkey : Bitmap.key v = Bitmap.key w
      · rw [← hkey]
        by_cases hin : Bitmap.key v < b.store.length
        · rw [getD_set_self _ _ _ hin, getD_set_self _ _ _ hin,
            List.set_set, List.set_set]
          have hword : b.store.getD (Bitmap.key v) 0 ||| (1 <<< Bitmap.bit v)
                ||| (1 <<< Bitmap.bit w)
              = b.store.getD (Bitmap.key v) 0 ||| (1 <<< Bitmap.bit w)
                ||| (1 <<< Bitmap.bit v) := by
            rw [Nat.or_assoc, Nat.or_assoc,
              Nat.or_comm (1 <<< Bitmap.bit v) (1 <<< Bitmap.bit w)]
          rw [hword]
        · have hge := le_of_not_lt hin
          simp only [List.set_eq_of_length_le hge]
      · rw [getD_set_ne b.store (Bitmap.key v) (Bitmap.key w)
            (b.store.getD (Bitmap.key v) 0 ||| (1 <<< Bitmap.bit v)) hkey,
          getD_set_ne b.store (Bitmap.key w) (Bitmap.key v)
            (b.store.getD (Bitmap.key w) 0 ||| (1 <<< Bitmap.bit w))
            (fun h => hkey h.symm),
          List.set_comm _ _ _ hkey]

theorem foldl_insert_perm (l1 l2 : List Nat) (hp : l1.Perm l2) :
    (∀ x ∈ l1, x < 65536) →
    ∀ b : Bitmap,
      l1.foldl (fun b v => (b.insert v).1) b
        = l2.foldl (fun b v => (b.insert v).1) b := by
  induction hp with
  | nil => intro _ b; rfl
  | cons x p ih =>
    intro hb b
    simp only [List.foldl_cons]
    exact ih (fun y hy => hb y (List.mem_cons_of_mem x hy)) _
  | swap x y l =>
    intro hb b
    simp only [List.foldl_cons]
    rw [insert_comm b y x (hb y (List.mem_cons_self y (x :: l)))
      (hb x (List.mem_cons_of_mem y (List.mem_cons_self x l)))]
  | trans p1 p2 ih1 ih2 =>
    intro hb b
    rw [ih1 hb b, ih2 (fun y hy => hb y (p1.mem_iff.mpr hy)) b]

theorem foldl_eq_insertAll : ∀ (l : List Nat) (b : Bitmap),
    l.foldl (fun b v => (b.insert v).1) b = Bitmap.insertAll b l := by
  intro l
  induction l with
  | nil => intro b; rfl
  | cons x xs ih =>
    intro b
    simp only [List.foldl_cons, Bitmap.insertAll]
    exact ih _

/-! ## Well-formedness of the binary operations -/

theorem zipWith_mem_bound (f : Nat → Nat → Nat)
    (hf : ∀ x y, x < 2 ^ 64 → y < 2 ^ 64 → f x y < 2 ^ 64) :
    ∀ (xs ys : List Nat), (∀ x ∈ xs, x < 2 ^ 64) → (∀ y ∈ ys, y < 2 ^ 64) →
      ∀ w ∈ List.zipWith f xs ys, w < 2 ^ 64 := by
  intro xs
  induction xs with
  | nil => intro ys _ _ w hw; simp at hw
  | cons x xs ih =>
    intro ys hx hy w hw
    cases ys with
    | nil => simp at hw
    | cons y ys =>
      rw [List.zipWith_cons_cons] at hw
      rcases List.mem_cons.mp hw with h | h
      · subst h
        exact hf x y (hx x (List.mem_cons_self x xs))
          (hy y (List.mem_cons_self y ys))
      · exact ih ys (fun t ht => hx t (List.mem_cons_of_mem x ht))
          (fun t ht => hy t (List.mem_cons_of_mem y ht)) w h

theorem intersection_WF (a b : Bitmap) (ha : a.WF) (hb : b.WF) :
    (a.intersection b).WF := by
  constructor
  · have : (a.intersection b).store.length = min a.store.length b.store.length :=
      List.length_zipWith _ _ _
    rw [this, ha.1, hb.1]
    simp
  · exact zipWith_mem_bound _
      (fun x y hx _ => lt_of_le_of_lt Nat.and_le_left hx)
      a.store b.store ha.2 hb.2

theorem bitor_WF (a b : Bitmap) (ha : a.WF) (hb : b.WF) :
    (a.bitor b).WF := by
  constructor
  · have : (a.bitor b).store.length = min a.store.length b.store.length :=
      List.length_zipWith _ _ _
    rw [this, ha.1, hb.1]
    simp
  · exact zipWith_mem_bound _
      (fun x y hx hy => Nat.or_lt_two_pow hx hy)
      a.store b.store ha.2 hb.2

/-! ## The claims -/

/-- C1: the spec (and the doc comment on `Bitmap::insert` itself) states that
`insert` returns `true` when the bit was already 1 and `false` when the value
is newly inserted.  Evaluating the embedded code at the failing input
`Bitmap::new().insert(0)` shows the opposite polarity: the value 0 is not
present, yet `insert(0)` returns `true`, and a second `insert(0)` (value now
present) returns `false`.  The code contradicts its own documentation. -/
theorem claim_C1_insert_polarity_bug :
    Bitmap.new.contains 0 = false
      ∧ (Bitmap.new.insert 0).2 = true
      ∧ ((Bitmap.new.insert 0).1.insert 0).2 = false := by
  refine ⟨rfl, rfl, ?_⟩
  rfl

/-- C2: for all well-formed bitmaps, the vectorized intersection yields a
store bit-for-bit identical to, and a cardinality identical to, the scalar
intersection. -/
theorem claim_C2_simd_matches_scalar (a b : Bitmap) (ha : a.WF) (hb : b.WF) :
    (a.intersection_simd b).store = (a.intersection b).store
      ∧ (a.intersection_simd b).len = (a.intersection b).len := by
  rw [intersection_simd_eq a b ha hb]
  exact ⟨rfl, rfl⟩

theorem claim_C2_witness :
    Bitmap.new.WF ∧ Bitmap.full.WF
      ∧ ((Bitmap.new.intersection_simd Bitmap.full).store
          = (Bitmap.new.intersection Bitmap.full).store
        ∧ (Bitmap.new.intersection_simd Bitmap.full).len
          = (Bitmap.new.intersection Bitmap.full).len) :=
  ⟨new_WF, full_WF,
    claim_C2_simd_matches_scalar Bitmap.new Bitmap.full new_WF full_WF⟩

/-- C3: after every public operation — empty and full construction, insert,
remove, scalar and vectorized intersection, and union — the cached
cardinality field equals the total popcount of the store. -/
theorem claim_C3_cardinality_invariant :
    Bitmap.new.Inv ∧ Bitmap.full.Inv
      ∧ (∀ (b : Bitmap) (v : Nat), b.WF → b.Inv → v < 65536 →
          (b.insert v).1.Inv)
      ∧ (∀ (b : Bitmap) (v : Nat), b.WF → b.Inv → v < 65536 →
          (b.remove v).1.Inv)
      ∧ (∀ a b : Bitmap, (a.intersection b).Inv)
      ∧ (∀ a b : Bitmap, a.WF → b.WF → (a.intersection_simd b).Inv)
      ∧ (∀ a b : Bitmap, (a.bitor b).Inv) :=
  ⟨new_inv, full_inv,
    fun b v hWF hInv hv => insert_inv b v hWF hInv hv,
    fun b v hWF hInv hv => remove_inv b v hWF hInv hv,
    fun a b => intersection_inv a b,
    fun a b ha hb => intersection_simd_inv a b ha hb,
    fun a b => bitor_inv a b⟩

theorem claim_C3_witness :
    Bitmap.new.WF ∧ Bitmap.new.Inv ∧ (0 : Nat) < 65536
      ∧ (Bitmap.new.insert 0).1.Inv :=
  ⟨new_WF, new_inv, by decide,
    claim_C3_cardinality_invariant.2.2.1 Bitmap.new 0 new_WF new_inv
      (by decide)⟩

/-- C4: `remove(v)` clears bit `v` and returns whether `v` was present
before the call; the cardinality decreases by exactly 1 when `v` was
present and is unchanged otherwise. -/
theorem claim_C4_remove (b : Bitmap) (v : Nat) (hWF : b.WF) (hInv : b.Inv)
    (hv : v < 65536) :
    (b.remove v).2 = b.contains v
      ∧ (b.remove v).1.contains v = false
      ∧ (b.remove v).1.len + (if b.contains v then 1 else 0) = b.len := by
  refine ⟨remove_snd b v hWF, remove_contains_self b v hWF hv, ?_⟩
  rw [remove_len b v hWF]
  cases hc : b.contains v
  · simp
  · have hpos := popsum_pos_of_contains b v hWF hv hc
    have hb2 : b.len = popsum b.store := hInv
    simp only [if_true]
    omega

theorem claim_C4_witness :
    Bitmap.new.WF ∧ Bitmap.new.Inv ∧ (3 : Nat) < 65536
      ∧ ((Bitmap.new.remove 3).2 = Bitmap.new.contains 3
        ∧ (Bitmap.new.remove 3).1.contains 3 = false
        ∧ (Bitmap.new.remove 3).1.len
            + (if Bitmap.new.contains 3 then 1 else 0) = Bitmap.new.len) :=
  ⟨new_WF, new_inv, by decide,
    claim_C4_remove Bitmap.new 3 new_WF new_inv (by decide)⟩

/-- C5: decoding the intersection `A & B` yields the sorted set
intersection of the decoded sequences of `A` and of `B`. -/
theorem claim_C5_intersection_decode (a b : Bitmap) (ha : a.WF) (hb : b.WF)
    (hia : a.Inv) (hib : b.Inv) :
    (a.bitand b).to_vec = listInter a.to_vec b.to_vec := by
  have hwf : (a.bitand b).WF := intersection_WF a b ha hb
  have hinv : (a.bitand b).Inv := intersection_inv a b
  rw [to_vec_eq _ hwf hinv, to_vec_eq a ha hia, to_vec_eq b hb hib]
  unfold listInter
  refine List.filter_congr (fun v hv => ?_)
  have hv2 : v < 65536 := List.mem_range.mp hv
  have hand : (a.bitand b).contains v = (a.contains v && b.contains v) :=
    intersection_contains a b v (by rw [ha.1, hb.1])
  rw [hand]
  cases hca : a.contains v <;> cases hcb : b.contains v <;>
    simp [List.mem_filter, List.mem_range, hv2, hca, hcb]

theorem claim_C5_witness :
    Bitmap.new.WF ∧ Bitmap.full.WF ∧ Bitmap.new.Inv ∧ Bitmap.full.Inv
      ∧ (Bitmap.new.bitand Bitmap.full).to_vec
          = listInter Bitmap.new.to_vec Bitmap.full.to_vec :=
  ⟨new_WF, full_WF, new_inv, full_inv,
    claim_C5_intersection_decode Bitmap.new Bitmap.full new_WF full_WF
      new_inv full_inv⟩

/-- C6: every word of the union `A | B` is the bitwise OR of the
corresponding words of `A` and `B`, the result's cardinality equals the
total popcount of the resulting store, and the decoded union equals the
sorted set union of the decoded operands. -/
theorem claim_C6_union (a b : Bitmap) (ha : a.WF) (hb : b.WF)
    (hia : a.Inv) (hib : b.Inv) :
    (∀ i : Nat, (a.bitor b).store.getD i 0
        = a.store.getD i 0 ||| b.store.getD i 0)
      ∧ (a.bitor b).len = popsum (a.bitor b).store
      ∧ (a.bitor b).to_vec = listUnion a.to_vec b.to_vec := by
  refine ⟨?_, rfl, ?_⟩
  · intro i
    exact getD_zipWith (fun x y => x ||| y) rfl a.store b.store
      (by rw [ha.1, hb.1]) i
  · have hwf : (a.bitor b).WF := bitor_WF a b ha hb
    have hinv : (a.bitor b).Inv := bitor_inv a b
    rw [to_vec_eq _ hwf hinv, to_vec_eq a ha hia, to_vec_eq b hb hib]
    unfold listUnion
    refine List.filter_congr (fun v hv => ?_)
    have hv2 : v < 65536 := List.mem_range.mp hv
    have hor : (a.bitor b).contains v = (a.contains v || b.contains v) :=
      bitor_contains a b v (by rw [ha.1, hb.1])
    rw [hor]
    cases hca : a.contains v <;> cases hcb : b.contains v <;>
      simp [List.mem_filter, List.mem_range, hv2, hca, hcb]

theorem claim_C6_witness :
    Bitmap.new.WF ∧ Bitmap.full.WF ∧ Bitmap.new.Inv ∧ Bitmap.full.Inv
      ∧ ((∀ i : Nat, (Bitmap.new.bitor Bitmap.full).store.getD i 0
            = Bitmap.new.store.getD i 0 ||| Bitmap.full.store.getD i 0)
        ∧ (Bitmap.new.bitor Bitmap.full).len
            = popsum (Bitmap.new.bitor Bitmap.full).store
        ∧ (Bitmap.new.bitor Bitmap.full).to_vec
            = listUnion Bitmap.new.to_vec Bitmap.full.to_vec) :=
  ⟨new_WF, full_WF, new_inv, full_inv,
    claim_C6_union Bitmap.new Bitmap.full new_WF full_WF new_inv full_inv⟩

/-- C7: for every bitmap satisfying the well-formedness and cardinality
invariants, the decoded sequence is strictly ascending, contains no
duplicates, and has length exactly `len()`. -/
theorem claim_C7_decode_sorted (b : Bitmap) (hWF : b.WF) (hInv : b.Inv) :
    b.to_vec.Pairwise (fun x y => x < y) ∧ b.to_vec.Nodup
      ∧ b.to_vec.length = b.len := by
  rw [to_vec_eq b hWF hInv]
  refine ⟨List.Pairwise.sublist (List.filter_sublist _)
      (List.pairwise_lt_range 65536),
    List.Nodup.filter _ (List.nodup_range 65536), ?_⟩
  rw [← List.countP_eq_length_filter, countP_contains b hWF]
  exact hInv.symm

theorem claim_C7_witness :
    Bitmap.full.WF ∧ Bitmap.full.Inv
      ∧ (Bitmap.full.to_vec.Pairwise (fun x y => x < y)
        ∧ Bitmap.full.to_vec.Nodup
        ∧ Bitmap.full.to_vec.length = Bitmap.full.len) :=
  ⟨full_WF, full_inv, claim_C7_decode_sorted Bitmap.full full_WF full_inv⟩

/-- C8: for every bitmap satisfying the cardinality invariant, the decode
loop never overflows or wraps the 16-bit index cursor: the checked variant,
in which the non-saturating `current_idx += 64` of the zero-word branch is
guarded against leaving the `u16` range, runs to completion and returns
exactly the unchecked decode.  (The per-bit advance saturates by
construction, and the loop structurally never reads past the last store
word.) -/
theorem claim_C8_no_cursor_overflow (b : Bitmap) (hWF : b.WF)
    (hInv : b.Inv) : b.to_vec_checked = some b.to_vec := by
  unfold Bitmap.to_vec_checked Bitmap.to_vec
  refine toVecGoChk_eq b.store 0 [] b.len (by rw [hWF.1]) (by simpa using hInv)
    (Or.inr (Or.inl ?_))
  rw [hWF.1]
  norm_num

theorem claim_C8_witness :
    Bitmap.new.WF ∧ Bitmap.new.Inv
      ∧ Bitmap.new.to_vec_checked = some Bitmap.new.to_vec :=
  ⟨new_WF, new_inv, claim_C8_no_cursor_overflow Bitmap.new new_WF new_inv⟩

/-- C9: bulk construction via `from_iter` equals starting from the empty
bitmap and inserting the values one by one, and the resulting bitmap is
independent of the order of the input sequence. -/
theorem claim_C9_from_iter (l l2 : List Nat) (hvals : ∀ x ∈ l, x < 65536)
    (hp : l.Perm l2) :
    Bitmap.from_iter l = Bitmap.insertAll Bitmap.new l
      ∧ Bitmap.from_iter l = Bitmap.from_iter l2 := by
  constructor
  · exact foldl_eq_insertAll l Bitmap.new
  · unfold Bitmap.from_iter
    exact foldl_insert_perm l l2 hp hvals Bitmap.new

theorem claim_C9_witness :
    (∀ x ∈ [1, 2, 2], x < 65536) ∧ List.Perm [1, 2, 2] [2, 1, 2]
      ∧ (Bitmap.from_iter [1, 2, 2] = Bitmap.insertAll Bitmap.new [1, 2, 2]
        ∧ Bitmap.from_iter [1, 2, 2] = Bitmap.from_iter [2, 1, 2]) :=
  ⟨by decide, by decide,
    claim_C9_from_iter [1, 2, 2] [2, 1, 2] (by decide) (by decide)⟩

/-- C10: `insert(v)` and `remove(v)` leave every bit other than bit `v`
unchanged — `contains(w)` is preserved for every `w ≠ v` — and every store
word other than the word holding bit `v` is unchanged. -/
theorem claim_C10_frame (b : Bitmap) (v w : Nat) (hv : v < 65536)
    (hw : w < 65536) (hne : w ≠ v) :
    (b.insert v).1.contains w = b.contains w
      ∧ (b.remove v).1.contains w = b.contains w
      ∧ (∀ i : Nat, i ≠ Bitmap.key v →
          (b.insert v).1.store.getD i 0 = b.store.getD i 0
            ∧ (b.remove v).1.store.getD i 0 = b.store.getD i 0) := by
  refine ⟨insert_contains_other b v w hne hv hw,
    remove_contains_other b v w hne hv hw, fun i hi => ?_⟩
  rw [insert_store, remove_store]
  exact ⟨getD_set_ne _ _ _ _ (fun h => hi h.symm),
    getD_set_ne _ _ _ _ (fun h => hi h.symm)⟩

theorem claim_C10_witness :
    (5 : Nat) < 65536 ∧ (6 : Nat) < 65536 ∧ (6 : Nat) ≠ 5
      ∧ ((Bitmap.new.insert 5).1.contains 6 = Bitmap.new.contains 6
        ∧ (Bitmap.new.remove 5).1.contains 6 = Bitmap.new.contains 6
        ∧ (∀ i : Nat, i ≠ Bitmap.key 5 →
            (Bitmap.new.insert 5).1.store.getD i 0
                = Bitmap.new.store.getD i 0
              ∧ (Bitmap.new.remove 5).1.store.getD i 0
                = Bitmap.new.store.getD i 0)) :=
  ⟨by decide, by decide, by decide,
    claim_C10_frame Bitmap.new 5 6 (by decide) (by decide) (by decide)⟩

end BitmapVerif
